import Mathlib

/-
Verification of the name-normalization and candidate-resolution core of the
audioFlashCards02 repository (src/gui_flash_cards.py and src/generate_audio.py).

Strings are shallowly embedded as lists of Unicode code points (`List Nat`).
Python library behaviour is modelled as follows, restricted to the character
repertoire the application manipulates (ASCII plus Cyrillic with its stress
diacritics):

* `unicodedata.normalize('NFD', _)` is the per-character canonical
  decomposition `nfdChar`, tabulated for the precomposed Cyrillic letters
  (all decompose into a base letter plus one combining mark of the
  U+0300..U+036F block); every other modelled code point is NFD-inert.
* `unicodedata.category(c) == 'Mn'` is `isMn`, the combining-diacritical-marks
  block U+0300..U+036F, which contains every mark produced by `nfdChar`.
* the regex `\s` / `str.strip` whitespace class is `isWs` (the Unicode
  whitespace code points recognised by Python for `str` patterns).
* `str.lower` is the per-character map `pyLower1` on ASCII and Cyrillic.
* `os.path.splitext` (POSIX flavour, as on the macOS host the code targets)
  is `splitextRoot`, keeping the root and dropping the extension.
* a directory is a listing (`List (List Nat)`) in enumeration order plus a
  Boolean for `os.path.isdir`; `os.path.exists(os.path.join(folder, f))` is
  membership of `f` in the listing guarded by that Boolean.
-/

/-- Code points of a Lean string literal; used to write concrete inputs. -/
def toCodes (s : String) : List Nat := s.data.map Char.toNat

/-- Python str-mode whitespace class (regex `\s` and `str.strip`). -/
def isWs (c : Nat) : Bool :=
  decide (c = 0x20 ∨ (0x9 ≤ c ∧ c ≤ 0xD) ∨ (0x1C ≤ c ∧ c ≤ 0x1F) ∨ c = 0x85 ∨
    c = 0xA0 ∨ c = 0x1680 ∨ (0x2000 ≤ c ∧ c ≤ 0x200A) ∨ c = 0x2028 ∨ c = 0x2029 ∨
    c = 0x202F ∨ c = 0x205F ∨ c = 0x3000)

/-- The fixed punctuation class of the regex `[?!:;,"\'.…—–-]` that both
normalizers remove: question mark, exclamation mark, colon, semicolon, comma,
double quote, single quote, period, ellipsis, em-dash, en-dash, hyphen. -/
def punctB (c : Nat) : Bool :=
  decide (c = 0x3F ∨ c = 0x21 ∨ c = 0x3A ∨ c = 0x3B ∨ c = 0x2C ∨ c = 0x22 ∨
    c = 0x27 ∨ c = 0x2E ∨ c = 0x2026 ∨ c = 0x2014 ∨ c = 0x2013 ∨ c = 0x2D)

/-- Nonspacing-mark test (`unicodedata.category _ == 'Mn'`), modelled as the
Combining Diacritical Marks block, which contains every mark produced by the
canonical decompositions in `nfdChar`. -/
def isMn (c : Nat) : Bool := decide (0x300 ≤ c ∧ c ≤ 0x36F)

/-- Canonical decomposition (NFD) of one code point, tabulated for the
precomposed Cyrillic letters; every other modelled code point is inert. -/
def nfdChar (c : Nat) : List Nat :=
  if c = 0x400 then [0x415, 0x300]
  else if c = 0x401 then [0x415, 0x308]
  else if c = 0x403 then [0x413, 0x301]
  else if c = 0x407 then [0x406, 0x308]
  else if c = 0x40C then [0x41A, 0x301]
  else if c = 0x40D then [0x418, 0x300]
  else if c = 0x40E then [0x423, 0x306]
  else if c = 0x419 then [0x418, 0x306]
  else if c = 0x439 then [0x438, 0x306]
  else if c = 0x450 then [0x435, 0x300]
  else if c = 0x451 then [0x435, 0x308]
  else if c = 0x453 then [0x433, 0x301]
  else if c = 0x457 then [0x456, 0x308]
  else if c = 0x45C then [0x43A, 0x301]
  else if c = 0x45D then [0x438, 0x300]
  else if c = 0x45E then [0x443, 0x306]
  else [c]

/-- `unicodedata.normalize('NFD', s)` over the whole string. -/
def nfdL (s : List Nat) : List Nat := (s.map nfdChar).flatten

/-- Removal of nonspacing marks after decomposition (the generator-expression
filter shared by both normalizers). -/
def removeMn (s : List Nat) : List Nat := s.filter (fun c => !isMn c)

/-- One step of `.replace("ё", "е").replace("Ё", "Е")`. -/
def yoChar (c : Nat) : Nat :=
  if c = 0x451 then 0x435 else if c = 0x401 then 0x415 else c

/-- `.replace("ё", "е").replace("Ё", "Е")` over the whole string. -/
def yoFix (s : List Nat) : List Nat := s.map yoChar

/-- The regex substitution removing the fixed punctuation class. -/
def stripPunct (s : List Nat) : List Nat := s.filter (fun c => !punctB c)

/-- One step of `.replace('/', '-').replace('\\', '-')`. -/
def slashChar (c : Nat) : Nat := if c = 0x2F ∨ c = 0x5C then 0x2D else c

/-- `.replace('/', '-').replace('\\', '-')` over the whole string. -/
def slashFix (s : List Nat) : List Nat := s.map slashChar

/-- State machine for `re.sub(r'\s+', ' ', _)`: the flag records whether the
previous character belonged to a whitespace run already emitted as one space. -/
def collapseWsAux : Bool → List Nat → List Nat
  | _, [] => []
  | prevWs, c :: cs =>
    if isWs c then
      if prevWs then collapseWsAux true cs else 0x20 :: collapseWsAux true cs
    else c :: collapseWsAux false cs

/-- `re.sub(r'\s+', ' ', _)`: each maximal whitespace run becomes one space. -/
def collapseWs (s : List Nat) : List Nat := collapseWsAux false s

/-- Helper for `str.strip()`: drop the maximal trailing whitespace run. -/
def dropTrailingWs : List Nat → List Nat
  | [] => []
  | a :: as =>
    match dropTrailingWs as with
    | [] => if isWs a then [] else [a]
    | b :: bs => a :: b :: bs

/-- `str.strip()`: drop leading and trailing whitespace. -/
def pyStrip (s : List Nat) : List Nat :=
  dropTrailingWs (s.dropWhile isWs)

/-- Structural invariant: no two adjacent characters are both whitespace. -/
def noDoubleWs : List Nat → Bool
  | [] => true
  | [_] => true
  | a :: b :: t => (!(isWs a && isWs b)) && noDoubleWs (b :: t)

/-- Structural invariant: the first character, if any, is not whitespace. -/
def headNotWs (s : List Nat) : Bool := s.head?.all (fun c => !isWs c)

/-- Structural invariant: the last character, if any, is not whitespace. -/
def lastNotWs (s : List Nat) : Bool := s.getLast?.all (fun c => !isWs c)

/-- `str.lower()` on one code point, for the ASCII and Cyrillic ranges the
application manipulates; other code points are unchanged. -/
def pyLower1 (c : Nat) : Nat :=
  if 0x41 ≤ c ∧ c ≤ 0x5A then c + 0x20
  else if 0x410 ≤ c ∧ c ≤ 0x42F then c + 0x20
  else if 0x400 ≤ c ∧ c ≤ 0x40F then c + 0x50
  else c

/-- `str.lower()` over the whole string. -/
def lowerL (s : List Nat) : List Nat := s.map pyLower1

/-- `str.rfind`: index of the last occurrence of `c`, `-1` when absent. -/
def rfind (c : Nat) : List Nat → Int
  | [] => -1
  | a :: as =>
    if 0 ≤ rfind c as then rfind c as + 1 else if a = c then 0 else -1

/-- Root part of `os.path.splitext` (POSIX): split at the last dot of the
basename unless every character between the last separator and that dot is
itself a dot (leading-dot filenames keep their dot). -/
def splitextRoot (s : List Nat) : List Nat :=
  if rfind 0x2F s < rfind 0x2E s ∧
      ((List.range s.length).any fun k =>
        decide (rfind 0x2F s < (k : Int)) && decide ((k : Int) < rfind 0x2E s) &&
          !(decide (s.getD k 0 = 0x2E))) then
    s.take (rfind 0x2E s).toNat
  else s

/-- `sanitize_filename` (gui_flash_cards.py lines 19-27; the copy in
generate_audio.py lines 30-46 is the same code): NFD, drop nonspacing marks,
fold ё/Ё to е/Е, remove the punctuation class, replace path separators with
hyphens, collapse whitespace runs, strip.  Note there is no lower-casing and
no extension stripping here. -/
def sanitize_filename (s : List Nat) : List Nat :=
  pyStrip (collapseWs (slashFix (stripPunct (yoFix (removeMn (nfdL s))))))

/-- `norm_base` (gui_flash_cards.py lines 29-42): strip the extension, NFD,
drop nonspacing marks, fold ё/Ё to е/Е, remove the punctuation class, collapse
whitespace runs, strip, lower-case.  Note there is no path-separator
replacement here. -/
def norm_base (s : List Nat) : List Nat :=
  lowerL (pyStrip (collapseWs (stripPunct (yoFix (removeMn (nfdL (splitextRoot s)))))))

/-- Code points of ".mp3". -/
def dotMp3 : List Nat := [0x2E, 0x6D, 0x70, 0x33]

/-- Code points of ".wav". -/
def dotWav : List Nat := [0x2E, 0x77, 0x61, 0x76]

/-- `f.lower().endswith(ext)`. -/
def lowerEndsWith (ext f : List Nat) : Bool := ext.isSuffixOf (f.map pyLower1)

/-- `os.path.join(folder, f)` for a folder name without trailing slash. -/
def joinPath (folder f : List Nat) : List Nat := folder ++ 0x2F :: f

/-- The AUDIO_FOLDER constant "audio_native". -/
def AUDIO_FOLDER : List Nat := toCodes "audio_native"

/-- The RECORDINGS_FOLDER constant "audio_user". -/
def RECORDINGS_FOLDER : List Nat := toCodes "audio_user"

/-- `os.path.exists(os.path.join(folder, f))`: the directory exists and the
listing contains `f`. -/
def fileExists (de : Bool) (listing : List (List Nat)) (f : List Nat) : Bool :=
  de && decide (f ∈ listing)

/-- `find_audio_path` (gui_flash_cards.py lines 44-74).  `de` is
`os.path.isdir(AUDIO_FOLDER)`, `listing` is `os.listdir(AUDIO_FOLDER)` in
enumeration order.  The three tiers: direct sanitized filename, normalized
scan, space-insensitive loose scan. -/
def find_audio_path (de : Bool) (listing : List (List Nat)) (display : List Nat) :
    Option (List Nat) :=
  if de = false then none
  else
    let target_norm := norm_base display
    let candidates := listing.filter (fun f => lowerEndsWith dotMp3 f)
    let direct := sanitize_filename display ++ dotMp3
    if direct ∈ listing then some (joinPath AUDIO_FOLDER direct)
    else
      match candidates.find? (fun f => decide (norm_base f = target_norm)) with
      | some f => some (joinPath AUDIO_FOLDER f)
      | none =>
        match candidates.find? (fun f =>
            decide ((norm_base f).filter (fun c => !decide (c = 0x20)) =
              target_norm.filter (fun c => !decide (c = 0x20)))) with
        | some f => some (joinPath AUDIO_FOLDER f)
        | none => none

/-- Tier 1 of `play_audio` (gui_flash_cards.py lines 90-94): a non-empty hint
taken literally as a filename stem, selected when `hint + ".mp3"` exists. -/
def hintExact (de : Bool) (listing : List (List Nat)) (hint : List Nat) :
    Option (List Nat) :=
  if hint = [] then none
  else if fileExists de listing (hint ++ dotMp3) = true then
    some (joinPath AUDIO_FOLDER (hint ++ dotMp3))
  else none

/-- Tier 2 of `play_audio` (gui_flash_cards.py lines 96-98): the sanitized
hint, tried when the literal hint missed. -/
def hintSanitized (de : Bool) (listing : List (List Nat)) (hint : List Nat) :
    Option (List Nat) :=
  if hint = [] then none
  else if fileExists de listing (sanitize_filename hint ++ dotMp3) = true then
    some (joinPath AUDIO_FOLDER (sanitize_filename hint ++ dotMp3))
  else none

/-- The path-resolution logic of `play_audio` (gui_flash_cards.py lines
85-104): literal hint, then sanitized hint, then `find_audio_path`.  The
source's final `os.path.exists(path)` re-check is vacuous because every path
produced was either existence-checked or drawn from the directory listing. -/
def play_audio_path (de : Bool) (listing : List (List Nat)) (display hint : List Nat) :
    Option (List Nat) :=
  match hintExact de listing hint with
  | some p => some p
  | none =>
    match hintSanitized de listing hint with
    | some p => some p
    | none => find_audio_path de listing display

/-- One iteration of the loop of `find_latest_user_recording` (gui_flash_cards.py
lines 154-166): skip non-WAV names and names whose stem does not start with the
sanitized base, otherwise keep the entry on a strictly larger timestamp. -/
def latestStep (base : List Nat) (acc : Option (List Nat) × Int)
    (fm : List Nat × Int) : Option (List Nat) × Int :=
  if (lowerEndsWith dotWav fm.1 && base.isPrefixOf (splitextRoot fm.1)) = true then
    if acc.2 < fm.2 then (some (joinPath RECORDINGS_FOLDER fm.1), fm.2) else acc
  else acc

/-- `find_latest_user_recording` (gui_flash_cards.py lines 141-170).  `de` is
`os.path.isdir(RECORDINGS_FOLDER)`; `listing` pairs each filename with its
modification time (a nonnegative value in the real system; the accumulator
starts at the sentinel `-1.0` of the source). -/
def find_latest_user_recording (de : Bool) (listing : List (List Nat × Int))
    (display : List Nat) : Option (List Nat) :=
  if de = false then none
  else
    (listing.foldl (latestStep (sanitize_filename display))
      ((none : Option (List Nat)), (-1 : Int))).1

/-- Outside the decomposition table's key range every code point is NFD-inert. -/
lemma nfdChar_eq_self_of_out (c : Nat) (h : c < 0x400 ∨ 0x45F ≤ c) : nfdChar c = [c] := by
  have k1 : c ≠ 0x400 := by omega
  have k2 : c ≠ 0x401 := by omega
  have k3 : c ≠ 0x403 := by omega
  have k4 : c ≠ 0x407 := by omega
  have k5 : c ≠ 0x40C := by omega
  have k6 : c ≠ 0x40D := by omega
  have k7 : c ≠ 0x40E := by omega
  have k8 : c ≠ 0x419 := by omega
  have k9 : c ≠ 0x439 := by omega
  have k10 : c ≠ 0x450 := by omega
  have k11 : c ≠ 0x451 := by omega
  have k12 : c ≠ 0x453 := by omega
  have k13 : c ≠ 0x457 := by omega
  have k14 : c ≠ 0x45C := by omega
  have k15 : c ≠ 0x45D := by omega
  have k16 : c ≠ 0x45E := by omega
  unfold nfdChar
  rw [if_neg k1, if_neg k2, if_neg k3, if_neg k4, if_neg k5, if_neg k6,
    if_neg k7, if_neg k8, if_neg k9, if_neg k10, if_neg k11, if_neg k12,
    if_neg k13, if_neg k14, if_neg k15, if_neg k16]

set_option maxRecDepth 100000 in
set_option maxHeartbeats 2000000 in
/-- Characterization of NFD-inertness inside the key range, by enumeration. -/
lemma nfdChar_iff_bounded : ∀ c < 0x45F, (nfdChar c = [c] ↔
    (c ≠ 0x400 ∧ c ≠ 0x401 ∧ c ≠ 0x403 ∧ c ≠ 0x407 ∧ c ≠ 0x40C ∧ c ≠ 0x40D ∧
     c ≠ 0x40E ∧ c ≠ 0x419 ∧ c ≠ 0x439 ∧ c ≠ 0x450 ∧ c ≠ 0x451 ∧ c ≠ 0x453 ∧
     c ≠ 0x457 ∧ c ≠ 0x45C ∧ c ≠ 0x45D ∧ c ≠ 0x45E)) := by decide

/-- Characterization of NFD-inert code points: exactly the points not in the
decomposition table. -/
lemma nfdChar_eq_self_iff (c : Nat) : nfdChar c = [c] ↔
    (c ≠ 0x400 ∧ c ≠ 0x401 ∧ c ≠ 0x403 ∧ c ≠ 0x407 ∧ c ≠ 0x40C ∧ c ≠ 0x40D ∧
     c ≠ 0x40E ∧ c ≠ 0x419 ∧ c ≠ 0x439 ∧ c ≠ 0x450 ∧ c ≠ 0x451 ∧ c ≠ 0x453 ∧
     c ≠ 0x457 ∧ c ≠ 0x45C ∧ c ≠ 0x45D ∧ c ≠ 0x45E) := by
  by_cases h : c < 0x45F
  · exact nfdChar_iff_bounded c h
  · constructor
    · intro _; omega
    · intro _; exact nfdChar_eq_self_of_out c (by omega)

set_option maxRecDepth 100000 in
set_option maxHeartbeats 2000000 in
/-- Inside the key range, every code point produced by a decomposition is
itself NFD-inert, by enumeration. -/
lemma nfdChar_inert_bounded : ∀ a < 0x45F, ∀ c ∈ nfdChar a, nfdChar c = [c] := by decide

/-- Every code point produced by a canonical decomposition is itself
NFD-inert (decompositions are full). -/
lemma nfdChar_inert_of_mem {a c : Nat} (h : c ∈ nfdChar a) : nfdChar c = [c] := by
  by_cases ha : a < 0x45F
  · exact nfdChar_inert_bounded a ha c h
  · rw [nfdChar_eq_self_of_out a (by omega)] at h
    simp only [List.mem_singleton] at h
    subst h
    exact nfdChar_eq_self_of_out c (by omega)

set_option maxRecDepth 100000 in
set_option maxHeartbeats 2000000 in
/-- Provenance of decomposition output inside the key range, by enumeration. -/
lemma mem_nfdChar_bounded : ∀ a < 0x45F, ∀ c ∈ nfdChar a,
    c = a ∨ (c = 0x415 ∨ c = 0x300 ∨ c = 0x308 ∨ c = 0x413 ∨ c = 0x301 ∨ c = 0x406 ∨
      c = 0x41A ∨ c = 0x418 ∨ c = 0x423 ∨ c = 0x306 ∨ c = 0x438 ∨ c = 0x435 ∨
      c = 0x433 ∨ c = 0x456 ∨ c = 0x443 ∨ c = 0x43A) := by decide

/-- Provenance of decomposition output: either the input itself or one of the
finitely many table outputs. -/
lemma mem_nfdChar {a c : Nat} (h : c ∈ nfdChar a) :
    c = a ∨ (c = 0x415 ∨ c = 0x300 ∨ c = 0x308 ∨ c = 0x413 ∨ c = 0x301 ∨ c = 0x406 ∨
      c = 0x41A ∨ c = 0x418 ∨ c = 0x423 ∨ c = 0x306 ∨ c = 0x438 ∨ c = 0x435 ∨
      c = 0x433 ∨ c = 0x456 ∨ c = 0x443 ∨ c = 0x43A) := by
  by_cases ha : a < 0x45F
  · exact mem_nfdChar_bounded a ha c h
  · rw [nfdChar_eq_self_of_out a (by omega)] at h
    simp only [List.mem_singleton] at h
    exact Or.inl h

/-- The ё→е fold never outputs ё or Ё. -/
lemma yoChar_ne_yo (c : Nat) : yoChar c ≠ 0x451 ∧ yoChar c ≠ 0x401 := by
  unfold yoChar; split_ifs <;> omega

/-- The ё→е fold preserves NFD-inertness. -/
lemma yoChar_inert {c : Nat} (h : nfdChar c = [c]) :
    nfdChar (yoChar c) = [yoChar c] := by
  unfold yoChar
  split_ifs with h1 h2
  · decide
  · decide
  · exact h

/-- The ё→е fold preserves whitespace status. -/
lemma isWs_yoChar (c : Nat) : isWs (yoChar c) = isWs c := by
  unfold yoChar
  split_ifs with h1 h2
  · subst h1; decide
  · subst h2; decide
  · rfl

/-- The ё→е fold preserves nonspacing-mark status. -/
lemma isMn_yoChar (c : Nat) : isMn (yoChar c) = isMn c := by
  unfold yoChar
  split_ifs with h1 h2
  · subst h1; decide
  · subst h2; decide
  · rfl

/-- The ё→е fold preserves punctuation status. -/
lemma punctB_yoChar (c : Nat) : punctB (yoChar c) = punctB c := by
  unfold yoChar
  split_ifs with h1 h2
  · subst h1; decide
  · subst h2; decide
  · rfl

/-- The path-separator replacement never outputs a separator. -/
lemma slashChar_ne_slash (c : Nat) : slashChar c ≠ 0x2F ∧ slashChar c ≠ 0x5C := by
  unfold slashChar; split_ifs <;> omega

/-- The path-separator replacement is the identity away from separators. -/
lemma slashChar_eq_self {c : Nat} (h1 : c ≠ 0x2F) (h2 : c ≠ 0x5C) :
    slashChar c = c := by
  unfold slashChar; split_ifs with h
  · rcases h with rfl | rfl <;> omega
  · rfl

/-- The path-separator replacement preserves NFD-inertness. -/
lemma slashChar_inert {c : Nat} (h : nfdChar c = [c]) :
    nfdChar (slashChar c) = [slashChar c] := by
  unfold slashChar
  split_ifs with h1
  · decide
  · exact h

/-- The path-separator replacement preserves whitespace status. -/
lemma isWs_slashChar (c : Nat) : isWs (slashChar c) = isWs c := by
  unfold slashChar
  split_ifs with h1
  · rcases h1 with rfl | rfl <;> decide
  · rfl

/-- The path-separator replacement preserves nonspacing-mark status. -/
lemma isMn_slashChar (c : Nat) : isMn (slashChar c) = isMn c := by
  unfold slashChar
  split_ifs with h1
  · rcases h1 with rfl | rfl <;> decide
  · rfl

/-- The path-separator replacement never outputs ё or Ё. -/
lemma slashChar_ne_yo {c : Nat} (h1 : c ≠ 0x451) (h2 : c ≠ 0x401) :
    slashChar c ≠ 0x451 ∧ slashChar c ≠ 0x401 := by
  unfold slashChar; split_ifs <;> omega

/-- On punctuation-free input the only punctuation the separator replacement
can output is the hyphen it introduces. -/
lemma slashChar_punct {c : Nat} (h : punctB c = false) :
    punctB (slashChar c) = true → slashChar c = 0x2D := by
  unfold slashChar
  split_ifs with h1
  · intro _; rfl
  · intro hc; rw [hc] at h; cases h

/-- Case analysis for the lower-casing map. -/
lemma pyLower1_eq (c : Nat) :
    (0x41 ≤ c ∧ c ≤ 0x5A ∧ pyLower1 c = c + 0x20) ∨
    (0x410 ≤ c ∧ c ≤ 0x42F ∧ pyLower1 c = c + 0x20) ∨
    (0x400 ≤ c ∧ c ≤ 0x40F ∧ pyLower1 c = c + 0x50) ∨
    ((¬(0x41 ≤ c ∧ c ≤ 0x5A) ∧ ¬(0x410 ≤ c ∧ c ≤ 0x42F) ∧
      ¬(0x400 ≤ c ∧ c ≤ 0x40F)) ∧ pyLower1 c = c) := by
  unfold pyLower1
  split_ifs with g1 g2 g3
  · exact Or.inl ⟨g1.1, g1.2, rfl⟩
  · exact Or.inr (Or.inl ⟨g2.1, g2.2, rfl⟩)
  · exact Or.inr (Or.inr (Or.inl ⟨g3.1, g3.2, rfl⟩))
  · exact Or.inr (Or.inr (Or.inr ⟨⟨g1, g2, g3⟩, rfl⟩))

/-- Lower-casing is idempotent on the modelled repertoire. -/
lemma pyLower1_idem (c : Nat) : pyLower1 (pyLower1 c) = pyLower1 c := by
  rcases pyLower1_eq c with ⟨h1, h2, h3⟩ | ⟨h1, h2, h3⟩ | ⟨h1, h2, h3⟩ | ⟨h1, h3⟩
  · rw [h3]; unfold pyLower1
    rw [if_neg (by omega), if_neg (by omega), if_neg (by omega)]
  · rw [h3]; unfold pyLower1
    rw [if_neg (by omega), if_neg (by omega), if_neg (by omega)]
  · rw [h3]; unfold pyLower1
    rw [if_neg (by omega), if_neg (by omega), if_neg (by omega)]
  · rw [h3, h3]

/-- Lower-casing preserves whitespace status. -/
lemma isWs_pyLower1 (c : Nat) : isWs (pyLower1 c) = isWs c := by
  rcases pyLower1_eq c with ⟨h1, h2, h3⟩ | ⟨h1, h2, h3⟩ | ⟨h1, h2, h3⟩ | ⟨h1, h3⟩ <;>
    rw [h3]
  · simp only [isWs]; rw [decide_eq_decide]; omega
  · simp only [isWs]; rw [decide_eq_decide]; omega
  · simp only [isWs]; rw [decide_eq_decide]; omega

/-- Lower-casing preserves punctuation status. -/
lemma punctB_pyLower1 (c : Nat) : punctB (pyLower1 c) = punctB c := by
  rcases pyLower1_eq c with ⟨h1, h2, h3⟩ | ⟨h1, h2, h3⟩ | ⟨h1, h2, h3⟩ | ⟨h1, h3⟩ <;>
    rw [h3]
  · simp only [punctB]; rw [decide_eq_decide]; omega
  · simp only [punctB]; rw [decide_eq_decide]; omega
  · simp only [punctB]; rw [decide_eq_decide]; omega

/-- Lower-casing preserves nonspacing-mark status. -/
lemma isMn_pyLower1 (c : Nat) : isMn (pyLower1 c) = isMn c := by
  rcases pyLower1_eq c with ⟨h1, h2, h3⟩ | ⟨h1, h2, h3⟩ | ⟨h1, h2, h3⟩ | ⟨h1, h3⟩ <;>
    rw [h3]
  · simp only [isMn]; rw [decide_eq_decide]; omega
  · simp only [isMn]; rw [decide_eq_decide]; omega
  · simp only [isMn]; rw [decide_eq_decide]; omega

/-- Lower-casing maps ё-free strings to ё-free strings. -/
lemma pyLower1_ne_yo {c : Nat} (h1 : c ≠ 0x451) (h2 : c ≠ 0x401) :
    pyLower1 c ≠ 0x451 ∧ pyLower1 c ≠ 0x401 := by
  rcases pyLower1_eq c with ⟨g1, g2, g3⟩ | ⟨g1, g2, g3⟩ | ⟨g1, g2, g3⟩ | ⟨g1, g3⟩ <;>
    rw [g3] <;> omega

/-- Lower-casing preserves NFD-inertness on the modelled repertoire. -/
lemma pyLower1_inert {c : Nat} (h : nfdChar c = [c]) :
    nfdChar (pyLower1 c) = [pyLower1 c] := by
  rw [nfdChar_eq_self_iff] at h ⊢
  rcases pyLower1_eq c with ⟨g1, g2, g3⟩ | ⟨g1, g2, g3⟩ | ⟨g1, g2, g3⟩ | ⟨g1, g3⟩ <;>
    rw [g3] <;> omega

/-- Membership in a decomposed string comes from decomposing some input
character. -/
lemma mem_nfdL {c : Nat} {s : List Nat} (h : c ∈ nfdL s) : ∃ a ∈ s, c ∈ nfdChar a := by
  unfold nfdL at h
  simp only [List.mem_flatten, List.mem_map] at h
  obtain ⟨t, ⟨a, ha, rfl⟩, hc⟩ := h
  exact ⟨a, ha, hc⟩

/-- NFD is the identity on strings of NFD-inert characters. -/
lemma nfdL_eq_self {s : List Nat} (h : ∀ c ∈ s, nfdChar c = [c]) : nfdL s = s := by
  induction s with
  | nil => rfl
  | cons a as ih =>
    have ha : nfdChar a = [a] := h a (List.mem_cons_self a as)
    have ih' : nfdL as = as := ih fun c hc => h c (List.mem_cons_of_mem a hc)
    unfold nfdL at ih' ⊢
    rw [List.map_cons, List.flatten_cons, ha, ih', List.singleton_append]

/-- A map is the identity when the function fixes every element. -/
lemma map_eq_self_of {f : Nat → Nat} {s : List Nat} (h : ∀ c ∈ s, f c = c) :
    s.map f = s := by
  induction s with
  | nil => rfl
  | cons a as ih =>
    rw [List.map_cons, h a (List.mem_cons_self a as),
      ih fun c hc => h c (List.mem_cons_of_mem a hc)]

/-- `rfind` never returns less than the sentinel `-1`. -/
lemma rfind_ge (c : Nat) (s : List Nat) : -1 ≤ rfind c s := by
  induction s with
  | nil => unfold rfind; omega
  | cons a as ih =>
    unfold rfind
    split_ifs <;> omega

/-- `rfind` returns the sentinel `-1` on absence. -/
lemma rfind_eq_neg_one {c : Nat} {s : List Nat} (h : c ∉ s) : rfind c s = -1 := by
  induction s with
  | nil => rfl
  | cons a as ih =>
    have h1 : rfind c as = -1 := ih fun m => h (List.mem_cons_of_mem a m)
    have h2 : a ≠ c := fun e => h (e ▸ List.mem_cons_self a as)
    unfold rfind
    rw [h1, if_neg (by omega), if_neg h2]

/-- Splitting the extension is the identity on dot-free strings. -/
lemma splitextRoot_eq_self {s : List Nat} (h : (0x2E : Nat) ∉ s) : splitextRoot s = s := by
  unfold splitextRoot
  rw [rfind_eq_neg_one h, if_neg]
  intro hc
  have := rfind_ge 0x2F s
  have h1 := hc.1
  omega

/-- The tail of a string without adjacent whitespace is again such a string. -/
lemma noDoubleWs_tail {a : Nat} {s : List Nat} (h : noDoubleWs (a :: s) = true) :
    noDoubleWs s = true := by
  rcases s with _ | ⟨b, bs⟩
  · rfl
  · simp only [noDoubleWs, Bool.and_eq_true] at h
    exact h.2

/-- Unfolding `noDoubleWs` on two explicit heads. -/
lemma noDoubleWs_cons_cons {a b : Nat} {bs : List Nat} :
    noDoubleWs (a :: b :: bs) = ((!(isWs a && isWs b)) && noDoubleWs (b :: bs)) := rfl

/-- Unfolding `lastNotWs` on two explicit heads. -/
lemma lastNotWs_cons_cons {a b : Nat} {bs : List Nat} :
    lastNotWs (a :: b :: bs) = lastNotWs (b :: bs) := by
  unfold lastNotWs
  rw [List.getLast?_cons_cons]

/-- Characters of the collapsed string are original characters or spaces. -/
lemma mem_collapseWsAux {c : Nat} :
    ∀ {s : List Nat} {flag : Bool}, c ∈ collapseWsAux flag s → c ∈ s ∨ c = 0x20 := by
  intro s
  induction s with
  | nil =>
    intro flag h
    simp only [collapseWsAux, List.not_mem_nil] at h
  | cons a as ih =>
    intro flag h
    simp only [collapseWsAux] at h
    by_cases hws : isWs a = true
    · rw [if_pos hws] at h
      cases flag with
      | true =>
        rw [if_pos rfl] at h
        rcases ih h with h1 | h1
        · exact Or.inl (List.mem_cons_of_mem a h1)
        · exact Or.inr h1
      | false =>
        rw [if_neg (by simp)] at h
        rcases List.mem_cons.mp h with rfl | h1
        · exact Or.inr rfl
        · rcases ih h1 with h2 | h2
          · exact Or.inl (List.mem_cons_of_mem a h2)
          · exact Or.inr h2
    · rw [if_neg hws] at h
      rcases List.mem_cons.mp h with rfl | h1
      · exact Or.inl (List.mem_cons_self _ _)
      · rcases ih h1 with h2 | h2
        · exact Or.inl (List.mem_cons_of_mem a h2)
        · exact Or.inr h2

/-- Whitespace in the collapsed string is only the plain space. -/
lemma ws_collapseWsAux {c : Nat} :
    ∀ {s : List Nat} {flag : Bool}, c ∈ collapseWsAux flag s → isWs c = true → c = 0x20 := by
  intro s
  induction s with
  | nil =>
    intro flag h _
    simp only [collapseWsAux, List.not_mem_nil] at h
  | cons a as ih =>
    intro flag h hc
    simp only [collapseWsAux] at h
    by_cases hws : isWs a = true
    · rw [if_pos hws] at h
      cases flag with
      | true =>
        rw [if_pos rfl] at h
        exact ih h hc
      | false =>
        rw [if_neg (by simp)] at h
        rcases List.mem_cons.mp h with rfl | h1
        · rfl
        · exact ih h1 hc
    · rw [if_neg hws] at h
      rcases List.mem_cons.mp h with rfl | h1
      · exact absurd hc hws
      · exact ih h1 hc

/-- After a space was just emitted, the collapsed string starts with a
non-whitespace character. -/
lemma head_collapseWsAux_true :
    ∀ {s : List Nat} {c : Nat}, (collapseWsAux true s).head? = some c → isWs c = false := by
  intro s
  induction s with
  | nil =>
    intro c h
    simp only [collapseWsAux] at h
    exact absurd h (by simp)
  | cons a as ih =>
    intro c h
    simp only [collapseWsAux] at h
    by_cases hws : isWs a = true
    · rw [if_pos hws] at h
      simp only [if_true] at h
      exact ih h
    · rw [if_neg hws] at h
      simp only [List.head?_cons, Option.some.injEq] at h
      subst h
      exact Bool.eq_false_iff.mpr hws

/-- The collapsed string never contains two adjacent whitespace characters. -/
lemma noDoubleWs_collapseWsAux :
    ∀ {s : List Nat} {flag : Bool}, noDoubleWs (collapseWsAux flag s) = true := by
  intro s
  induction s with
  | nil => intro flag; rfl
  | cons a as ih =>
    intro flag
    simp only [collapseWsAux]
    by_cases hws : isWs a = true
    · rw [if_pos hws]
      cases flag with
      | true => rw [if_pos rfl]; exact ih
      | false =>
        rw [if_neg (by simp)]
        rcases hcc : collapseWsAux true as with _ | ⟨b, bs⟩
        · rfl
        · have hb : isWs b = false := head_collapseWsAux_true (by rw [hcc]; rfl)
          have hnd : noDoubleWs (b :: bs) = true := by rw [← hcc]; exact ih
          rw [noDoubleWs_cons_cons, hb]
          simp [hnd]
    · rw [if_neg hws]
      rcases hcc : collapseWsAux false as with _ | ⟨b, bs⟩
      · rfl
      · have hnd : noDoubleWs (b :: bs) = true := by rw [← hcc]; exact ih
        have hwa : isWs a = false := Bool.eq_false_iff.mpr hws
        rw [noDoubleWs_cons_cons, hwa]
        simp [hnd]

/-- The collapse is the identity on strings whose whitespace is single plain
spaces with no adjacent whitespace pairs; with the flag set it additionally
needs a non-whitespace head. -/
lemma collapseWsAux_eq_self :
    ∀ {s : List Nat}, (∀ c ∈ s, isWs c = true → c = 0x20) → noDoubleWs s = true →
      (collapseWsAux false s = s ∧ (headNotWs s = true → collapseWsAux true s = s)) := by
  intro s
  induction s with
  | nil => intro _ _; exact ⟨rfl, fun _ => rfl⟩
  | cons a as ih =>
    intro hws hnd
    have hws' : ∀ c ∈ as, isWs c = true → c = 0x20 :=
      fun c hc => hws c (List.mem_cons_of_mem a hc)
    obtain ⟨ihf, iht⟩ := ih hws' (noDoubleWs_tail hnd)
    constructor
    · simp only [collapseWsAux]
      by_cases ha : isWs a = true
      · rw [if_pos ha, if_neg (by simp)]
        have ha20 : a = 0x20 := hws a (List.mem_cons_self a as) ha
        have hh : headNotWs as = true := by
          rcases as with _ | ⟨b, bs⟩
          · rfl
          · rw [noDoubleWs_cons_cons, ha] at hnd
            simp only [Bool.true_and, Bool.and_eq_true, Bool.not_eq_true'] at hnd
            simp only [headNotWs, List.head?_cons, Option.all_some, Bool.not_eq_true']
            exact hnd.1
        rw [iht hh, ha20]
      · rw [if_neg ha, ihf]
    · intro hhead
      simp only [collapseWsAux]
      have ha : isWs a = false := by
        simp only [headNotWs, List.head?_cons, Option.all_some, Bool.not_eq_true'] at hhead
        exact hhead
      rw [if_neg (by rw [ha]; simp), ihf]

/-- Characters survive `dropTrailingWs` from the original string. -/
lemma mem_dropTrailingWs {c : Nat} :
    ∀ {s : List Nat}, c ∈ dropTrailingWs s → c ∈ s := by
  intro s
  induction s with
  | nil => intro h; exact h
  | cons a as ih =>
    intro h
    unfold dropTrailingWs at h
    split at h
    · by_cases hws : isWs a = true
      · rw [if_pos hws] at h
        exact absurd h (List.not_mem_nil c)
      · rw [if_neg hws] at h
        simp only [List.mem_singleton] at h
        exact h ▸ List.mem_cons_self a as
    · rename_i b bs heq
      rcases List.mem_cons.mp h with rfl | h1
      · exact List.mem_cons_self _ _
      · exact List.mem_cons_of_mem a (ih (heq ▸ h1))

/-- `dropTrailingWs` preserves the head when its result is nonempty. -/
lemma head?_dropTrailingWs :
    ∀ {s : List Nat} {b : Nat} {bs : List Nat},
      dropTrailingWs s = b :: bs → s.head? = some b := by
  intro s
  induction s with
  | nil => intro b bs h; simp [dropTrailingWs] at h
  | cons a as ih =>
    intro b bs h
    unfold dropTrailingWs at h
    split at h
    · by_cases hws : isWs a = true
      · rw [if_pos hws] at h
        simp at h
      · rw [if_neg hws] at h
        simp only [List.cons.injEq] at h
        rw [List.head?_cons, h.1]
    · injection h with h1 _
      rw [List.head?_cons, h1]

/-- The result of `dropTrailingWs` never ends in whitespace. -/
lemma lastNotWs_dropTrailingWs : ∀ {s : List Nat}, lastNotWs (dropTrailingWs s) = true := by
  intro s
  induction s with
  | nil => rfl
  | cons a as ih =>
    unfold dropTrailingWs
    split
    · by_cases hws : isWs a = true
      · rw [if_pos hws]; rfl
      · rw [if_neg hws]
        simp only [lastNotWs, List.getLast?_singleton, Option.all_some, Bool.not_eq_true']
        exact Bool.eq_false_iff.mpr hws
    · rename_i b bs heq
      rw [lastNotWs_cons_cons, ← heq]
      exact ih

/-- `dropTrailingWs` preserves freedom from adjacent whitespace. -/
lemma noDoubleWs_dropTrailingWs :
    ∀ {s : List Nat}, noDoubleWs s = true → noDoubleWs (dropTrailingWs s) = true := by
  intro s
  induction s with
  | nil => intro _; rfl
  | cons a as ih =>
    intro h
    unfold dropTrailingWs
    split
    · by_cases hws : isWs a = true
      · rw [if_pos hws]; rfl
      · rw [if_neg hws]; rfl
    · rename_i b bs heq
      have hnd : noDoubleWs (b :: bs) = true := heq ▸ ih (noDoubleWs_tail h)
      have hb : as.head? = some b := head?_dropTrailingWs heq
      rcases as with _ | ⟨x, xs⟩
      · simp at hb
      · rw [List.head?_cons, Option.some.injEq] at hb
        subst hb
        rw [noDoubleWs_cons_cons] at h ⊢
        simp only [Bool.and_eq_true] at h ⊢
        exact ⟨h.1, hnd⟩

/-- `dropTrailingWs` is the identity on strings not ending in whitespace. -/
lemma dropTrailingWs_eq_self :
    ∀ {s : List Nat}, lastNotWs s = true → dropTrailingWs s = s := by
  intro s
  induction s with
  | nil => intro _; rfl
  | cons a as ih =>
    intro h
    rcases as with _ | ⟨x, xs⟩
    · have ha : isWs a = false := by
        simp only [lastNotWs, List.getLast?_singleton, Option.all_some,
          Bool.not_eq_true'] at h
        exact h
      show (if isWs a = true then [] else [a]) = [a]
      rw [if_neg (by rw [ha]; simp)]
    · rw [lastNotWs_cons_cons] at h
      have hd : dropTrailingWs (x :: xs) = x :: xs := ih h
      unfold dropTrailingWs
      rw [hd]

/-- Characters survive `List.dropWhile` from the original string. -/
lemma mem_dropWhile {c : Nat} {p : Nat → Bool} :
    ∀ {s : List Nat}, c ∈ s.dropWhile p → c ∈ s := by
  intro s
  induction s with
  | nil => intro h; exact h
  | cons a as ih =>
    intro h
    rw [List.dropWhile_cons] at h
    by_cases hp : p a = true
    · rw [if_pos hp] at h
      exact List.mem_cons_of_mem a (ih h)
    · rw [if_neg hp] at h
      exact h

/-- Dropping leading whitespace leaves a non-whitespace head. -/
lemma headNotWs_dropWhileWs : ∀ {s : List Nat}, headNotWs (s.dropWhile isWs) = true := by
  intro s
  induction s with
  | nil => rfl
  | cons a as ih =>
    rw [List.dropWhile_cons]
    by_cases hp : isWs a = true
    · rw [if_pos hp]; exact ih
    · rw [if_neg hp]
      simp only [headNotWs, List.head?_cons, Option.all_some, Bool.not_eq_true']
      exact Bool.eq_false_iff.mpr hp

/-- Dropping leading whitespace is the identity when the head is not
whitespace. -/
lemma dropWhile_eq_self_of_headNotWs {s : List Nat} (h : headNotWs s = true) :
    s.dropWhile isWs = s := by
  rcases s with _ | ⟨a, as⟩
  · rfl
  · simp only [headNotWs, List.head?_cons, Option.all_some, Bool.not_eq_true'] at h
    rw [List.dropWhile_cons, if_neg (by rw [h]; simp)]

/-- `List.dropWhile` preserves freedom from adjacent whitespace. -/
lemma noDoubleWs_dropWhileWs :
    ∀ {s : List Nat}, noDoubleWs s = true → noDoubleWs (s.dropWhile isWs) = true := by
  intro s
  induction s with
  | nil => intro h; exact h
  | cons a as ih =>
    intro h
    rw [List.dropWhile_cons]
    by_cases hp : isWs a = true
    · rw [if_pos hp]
      exact ih (noDoubleWs_tail h)
    · rw [if_neg hp]
      exact h

/-- Characters of the stripped string come from the original string. -/
lemma mem_pyStrip {c : Nat} {s : List Nat} (h : c ∈ pyStrip s) : c ∈ s :=
  mem_dropWhile (mem_dropTrailingWs h)

/-- The stripped string does not start with whitespace. -/
lemma headNotWs_pyStrip (s : List Nat) : headNotWs (pyStrip s) = true := by
  unfold pyStrip
  rcases hh : dropTrailingWs (s.dropWhile isWs) with _ | ⟨b, bs⟩
  · rfl
  · have hb : (s.dropWhile isWs).head? = some b := head?_dropTrailingWs hh
    have hnw := headNotWs_dropWhileWs (s := s)
    rw [headNotWs, hb] at hnw
    simp only [Option.all_some, Bool.not_eq_true'] at hnw
    simp only [headNotWs, List.head?_cons, Option.all_some, Bool.not_eq_true']
    exact hnw

/-- The stripped string does not end with whitespace. -/
lemma lastNotWs_pyStrip (s : List Nat) : lastNotWs (pyStrip s) = true :=
  lastNotWs_dropTrailingWs

/-- Stripping preserves freedom from adjacent whitespace. -/
lemma noDoubleWs_pyStrip {s : List Nat} (h : noDoubleWs s = true) :
    noDoubleWs (pyStrip s) = true :=
  noDoubleWs_dropTrailingWs (noDoubleWs_dropWhileWs h)

/-- Stripping is the identity on strings with non-whitespace edges. -/
lemma pyStrip_eq_self {s : List Nat} (h1 : headNotWs s = true) (h2 : lastNotWs s = true) :
    pyStrip s = s := by
  unfold pyStrip
  rw [dropWhile_eq_self_of_headNotWs h1, dropTrailingWs_eq_self h2]

/-- Characters of the collapsed string are original characters or spaces. -/
lemma mem_collapseWs {c : Nat} {s : List Nat} (h : c ∈ collapseWs s) :
    c ∈ s ∨ c = 0x20 :=
  mem_collapseWsAux h

/-- Whitespace in the collapsed string is only the plain space. -/
lemma ws_collapseWs {c : Nat} {s : List Nat} (h : c ∈ collapseWs s)
    (hc : isWs c = true) : c = 0x20 :=
  ws_collapseWsAux h hc

/-- The collapsed string has no adjacent whitespace pair. -/
lemma noDoubleWs_collapseWs (s : List Nat) : noDoubleWs (collapseWs s) = true :=
  noDoubleWs_collapseWsAux

/-- Collapsing is the identity on already collapsed strings. -/
lemma collapseWs_eq_self {s : List Nat} (hws : ∀ c ∈ s, isWs c = true → c = 0x20)
    (hnd : noDoubleWs s = true) : collapseWs s = s :=
  (collapseWsAux_eq_self hws hnd).1

/-- Case analysis for the ё→е fold. -/
lemma yoChar_cases (c : Nat) : yoChar c = c ∨ yoChar c = 0x435 ∨ yoChar c = 0x415 := by
  unfold yoChar
  split_ifs <;> tauto

/-- Every character of the sanitizer's output is NFD-inert, not a nonspacing
mark, not ё/Ё, not a path separator, whitespace only as a plain space, and
punctuation only as the hyphen introduced for path separators. -/
lemma sanitize_mem {c : Nat} {s : List Nat} (h : c ∈ sanitize_filename s) :
    nfdChar c = [c] ∧ isMn c = false ∧ c ≠ 0x451 ∧ c ≠ 0x401 ∧ c ≠ 0x2F ∧ c ≠ 0x5C ∧
      (isWs c = true → c = 0x20) ∧ (punctB c = true → c = 0x2D) := by
  unfold sanitize_filename at h
  have h1 := mem_pyStrip h
  have hws : isWs c = true → c = 0x20 := fun hw => ws_collapseWs h1 hw
  rcases mem_collapseWs h1 with h2 | rfl
  · obtain ⟨d0, hd0, rfl⟩ := List.mem_map.mp h2
    obtain ⟨h3, hp⟩ := List.mem_filter.mp hd0
    obtain ⟨d, hd, rfl⟩ := List.mem_map.mp h3
    obtain ⟨h5, hmn⟩ := List.mem_filter.mp hd
    obtain ⟨a, _, hda⟩ := mem_nfdL h5
    have hinert : nfdChar d = [d] := nfdChar_inert_of_mem hda
    have hmn' : isMn d = false := by
      simpa using hmn
    have hp' : punctB (yoChar d) = false := by
      simpa using hp
    refine ⟨slashChar_inert (yoChar_inert hinert), ?_,
      (slashChar_ne_yo (yoChar_ne_yo d).1 (yoChar_ne_yo d).2).1,
      (slashChar_ne_yo (yoChar_ne_yo d).1 (yoChar_ne_yo d).2).2,
      (slashChar_ne_slash _).1, (slashChar_ne_slash _).2, hws,
      slashChar_punct hp'⟩
    rw [isMn_slashChar, isMn_yoChar]
    exact hmn'
  · exact ⟨by decide, by decide, by decide, by decide, by decide, by decide,
      fun _ => rfl, by decide⟩

/-- On inputs free of path separators the sanitizer's output is entirely
punctuation-free: the hyphen case of `sanitize_mem` cannot arise. -/
lemma sanitize_mem_noSlash {c : Nat} {s : List Nat}
    (hs : ∀ d ∈ s, d ≠ 0x2F ∧ d ≠ 0x5C) (h : c ∈ sanitize_filename s) :
    punctB c = false := by
  unfold sanitize_filename at h
  have h1 := mem_pyStrip h
  rcases mem_collapseWs h1 with h2 | rfl
  · obtain ⟨d0, hd0, rfl⟩ := List.mem_map.mp h2
    obtain ⟨h3, hp⟩ := List.mem_filter.mp hd0
    obtain ⟨d, hd, rfl⟩ := List.mem_map.mp h3
    obtain ⟨h5, _⟩ := List.mem_filter.mp hd
    obtain ⟨a, ha, hda⟩ := mem_nfdL h5
    have hdslash : d ≠ 0x2F ∧ d ≠ 0x5C := by
      rcases mem_nfdChar hda with rfl | htab
      · exact hs d ha
      · omega
    have hyoslash : yoChar d ≠ 0x2F ∧ yoChar d ≠ 0x5C := by
      rcases yoChar_cases d with he | he | he <;> rw [he] <;> omega
    rw [slashChar_eq_self hyoslash.1 hyoslash.2]
    simpa using hp
  · decide

/-- The sanitizer's output has no adjacent whitespace pair. -/
lemma noDoubleWs_sanitize (s : List Nat) : noDoubleWs (sanitize_filename s) = true :=
  noDoubleWs_pyStrip (noDoubleWs_collapseWs _)

/-- The sanitizer's output does not start with whitespace. -/
lemma headNotWs_sanitize (s : List Nat) : headNotWs (sanitize_filename s) = true :=
  headNotWs_pyStrip _

/-- The sanitizer's output does not end with whitespace. -/
lemma lastNotWs_sanitize (s : List Nat) : lastNotWs (sanitize_filename s) = true :=
  lastNotWs_pyStrip _

/-- Every character of `norm_base`'s output is NFD-inert, not a nonspacing
mark, not ё/Ё, not punctuation, and whitespace only as a plain space. -/
lemma norm_base_mem {c : Nat} {s : List Nat} (h : c ∈ norm_base s) :
    nfdChar c = [c] ∧ isMn c = false ∧ c ≠ 0x451 ∧ c ≠ 0x401 ∧ punctB c = false ∧
      (isWs c = true → c = 0x20) := by
  unfold norm_base lowerL at h
  obtain ⟨b, hb, rfl⟩ := List.mem_map.mp h
  have hb1 := mem_pyStrip hb
  have hwsb : isWs b = true → b = 0x20 := fun hw => ws_collapseWs hb1 hw
  have hcws : isWs (pyLower1 b) = true → pyLower1 b = 0x20 := by
    intro hw
    rw [isWs_pyLower1] at hw
    rw [hwsb hw]
    decide
  rcases mem_collapseWs hb1 with h2 | rfl
  · obtain ⟨h3, hp⟩ := List.mem_filter.mp h2
    obtain ⟨d, hd, rfl⟩ := List.mem_map.mp h3
    obtain ⟨h5, hmn⟩ := List.mem_filter.mp hd
    obtain ⟨a, _, hda⟩ := mem_nfdL h5
    have hinert : nfdChar d = [d] := nfdChar_inert_of_mem hda
    refine ⟨pyLower1_inert (yoChar_inert hinert), ?_,
      (pyLower1_ne_yo (yoChar_ne_yo d).1 (yoChar_ne_yo d).2).1,
      (pyLower1_ne_yo (yoChar_ne_yo d).1 (yoChar_ne_yo d).2).2, ?_, hcws⟩
    · rw [isMn_pyLower1, isMn_yoChar]
      simpa using hmn
    · rw [punctB_pyLower1]
      simpa using hp
  · exact ⟨by decide, by decide, by decide, by decide, by decide, fun _ => by decide⟩

/-- Lower-casing preserves freedom from adjacent whitespace. -/
lemma noDoubleWs_lowerL : ∀ {s : List Nat}, noDoubleWs s = true →
    noDoubleWs (lowerL s) = true := by
  intro s
  induction s with
  | nil => intro _; rfl
  | cons a as ih =>
    intro h
    rcases as with _ | ⟨b, bs⟩
    · rfl
    · rw [noDoubleWs_cons_cons] at h
      simp only [Bool.and_eq_true] at h
      show noDoubleWs (pyLower1 a :: pyLower1 b :: bs.map pyLower1) = true
      rw [noDoubleWs_cons_cons]
      simp only [Bool.and_eq_true]
      refine ⟨?_, ih h.2⟩
      rw [isWs_pyLower1, isWs_pyLower1]
      exact h.1

/-- Lower-casing preserves a non-whitespace head. -/
lemma headNotWs_lowerL {s : List Nat} (h : headNotWs s = true) :
    headNotWs (lowerL s) = true := by
  unfold headNotWs lowerL at *
  rw [List.head?_map]
  cases hh : s.head? with
  | none => simp
  | some a =>
    rw [hh] at h
    simp only [Option.all_some, Bool.not_eq_true'] at h
    simp only [Option.map_some', Option.all_some, Bool.not_eq_true']
    rw [isWs_pyLower1]
    exact h

/-- Lower-casing preserves a non-whitespace last character. -/
lemma lastNotWs_lowerL {s : List Nat} (h : lastNotWs s = true) :
    lastNotWs (lowerL s) = true := by
  unfold lastNotWs lowerL at *
  rw [List.getLast?_map]
  cases hh : s.getLast? with
  | none => simp
  | some a =>
    rw [hh] at h
    simp only [Option.all_some, Bool.not_eq_true'] at h
    simp only [Option.map_some', Option.all_some, Bool.not_eq_true']
    rw [isWs_pyLower1]
    exact h

/-- `norm_base` is idempotent. -/
lemma norm_base_idem (s : List Nat) : norm_base (norm_base s) = norm_base s := by
  have hmem : ∀ c ∈ norm_base s, nfdChar c = [c] ∧ isMn c = false ∧ c ≠ 0x451 ∧
      c ≠ 0x401 ∧ punctB c = false ∧ (isWs c = true → c = 0x20) :=
    fun c hc => norm_base_mem hc
  have hnd : noDoubleWs (norm_base s) = true := by
    unfold norm_base
    exact noDoubleWs_lowerL (noDoubleWs_pyStrip (noDoubleWs_collapseWs _))
  have hhead : headNotWs (norm_base s) = true := by
    unfold norm_base
    exact headNotWs_lowerL (headNotWs_pyStrip _)
  have hlast : lastNotWs (norm_base s) = true := by
    unfold norm_base
    exact lastNotWs_lowerL (lastNotWs_pyStrip _)
  have h1 : splitextRoot (norm_base s) = norm_base s := by
    refine splitextRoot_eq_self fun hdot => ?_
    have := (hmem _ hdot).2.2.2.2.1
    simp [punctB] at this
  have h2 : nfdL (norm_base s) = norm_base s :=
    nfdL_eq_self fun c hc => (hmem c hc).1
  have h3 : removeMn (norm_base s) = norm_base s := by
    unfold removeMn
    rw [List.filter_eq_self]
    intro a ha
    rw [(hmem a ha).2.1]
    rfl
  have h4 : yoFix (norm_base s) = norm_base s := by
    unfold yoFix
    refine map_eq_self_of fun c hc => ?_
    have hc' := hmem c hc
    unfold yoChar
    rw [if_neg hc'.2.2.1, if_neg hc'.2.2.2.1]
  have h5 : stripPunct (norm_base s) = norm_base s := by
    unfold stripPunct
    rw [List.filter_eq_self]
    intro a ha
    rw [(hmem a ha).2.2.2.2.1]
    rfl
  have h6 : collapseWs (norm_base s) = norm_base s :=
    collapseWs_eq_self (fun c hc => (hmem c hc).2.2.2.2.2) hnd
  have h7 : pyStrip (norm_base s) = norm_base s := pyStrip_eq_self hhead hlast
  have h8 : lowerL (norm_base s) = norm_base s := by
    conv_lhs => rw [norm_base]
    unfold lowerL
    rw [List.map_map]
    conv_rhs => rw [norm_base]
    unfold lowerL
    exact List.map_congr_left fun a _ => pyLower1_idem a
  conv_lhs => rw [norm_base]
  rw [h1, h2, h3, h4, h5, h6, h7, h8]

/-- The sanitizer is idempotent on inputs free of path separators. -/
lemma sanitize_idem_of_noslash {s : List Nat} (hs : ∀ d ∈ s, d ≠ 0x2F ∧ d ≠ 0x5C) :
    sanitize_filename (sanitize_filename s) = sanitize_filename s := by
  have hmem : ∀ c ∈ sanitize_filename s, nfdChar c = [c] ∧ isMn c = false ∧
      c ≠ 0x451 ∧ c ≠ 0x401 ∧ c ≠ 0x2F ∧ c ≠ 0x5C ∧ (isWs c = true → c = 0x20) ∧
      (punctB c = true → c = 0x2D) :=
    fun c hc => sanitize_mem hc
  have hpf : ∀ c ∈ sanitize_filename s, punctB c = false :=
    fun c hc => sanitize_mem_noSlash hs hc
  have h2 : nfdL (sanitize_filename s) = sanitize_filename s :=
    nfdL_eq_self fun c hc => (hmem c hc).1
  have h3 : removeMn (sanitize_filename s) = sanitize_filename s := by
    unfold removeMn
    rw [List.filter_eq_self]
    intro a ha
    rw [(hmem a ha).2.1]
    rfl
  have h4 : yoFix (sanitize_filename s) = sanitize_filename s := by
    unfold yoFix
    refine map_eq_self_of fun c hc => ?_
    have hc' := hmem c hc
    unfold yoChar
    rw [if_neg hc'.2.2.1, if_neg hc'.2.2.2.1]
  have h5 : stripPunct (sanitize_filename s) = sanitize_filename s := by
    unfold stripPunct
    rw [List.filter_eq_self]
    intro a ha
    rw [hpf a ha]
    rfl
  have h5b : slashFix (sanitize_filename s) = sanitize_filename s := by
    unfold slashFix
    refine map_eq_self_of fun c hc => ?_
    exact slashChar_eq_self (hmem c hc).2.2.2.2.1 (hmem c hc).2.2.2.2.2.1
  have h6 : collapseWs (sanitize_filename s) = sanitize_filename s :=
    collapseWs_eq_self (fun c hc => (hmem c hc).2.2.2.2.2.2.1) (noDoubleWs_sanitize s)
  have h7 : pyStrip (sanitize_filename s) = sanitize_filename s :=
    pyStrip_eq_self (headNotWs_sanitize s) (lastNotWs_sanitize s)
  conv_lhs => rw [sanitize_filename]
  rw [h2, h3, h4, h5, h5b, h6, h7]

/-- The filter `f.lower().endswith(".mp3")` accepts every name built by
appending the literal ".mp3". -/
lemma lowerEndsWith_append (x : List Nat) : lowerEndsWith dotMp3 (x ++ dotMp3) = true := by
  unfold lowerEndsWith
  rw [List.map_append]
  have hfix : dotMp3.map pyLower1 = dotMp3 := by decide
  rw [hfix]
  simp only [List.isSuffixOf_iff_suffix]
  exact List.suffix_append _ _

/-- Tier 1 selects precisely when the directory exists, the hint is non-empty
and the literal stem plus ".mp3" is among the candidates. -/
lemma hintExact_eq_some_iff {de : Bool} {listing : List (List Nat)} {hint p : List Nat} :
    hintExact de listing hint = some p ↔
      (hint ≠ [] ∧ de = true ∧ (hint ++ dotMp3) ∈ listing ∧
        p = joinPath AUDIO_FOLDER (hint ++ dotMp3)) := by
  unfold hintExact fileExists
  split_ifs with h1 h2
  · simp [h1]
  · simp only [Bool.and_eq_true, decide_eq_true_eq] at h2
    constructor
    · intro he
      injection he with he
      exact ⟨h1, h2.1, h2.2, he.symm⟩
    · rintro ⟨_, _, _, hp⟩
      rw [hp]
  · simp only [Bool.and_eq_true, decide_eq_true_eq] at h2
    constructor
    · intro he
      cases he
    · rintro ⟨_, hde, hmem, _⟩
      exact absurd ⟨hde, hmem⟩ h2

/-- On a matching entry the loop step keeps it only for a strictly larger
timestamp. -/
lemma latestStep_eq_of_match {base : List Nat} {acc : Option (List Nat) × Int}
    {f : List Nat} {t : Int}
    (hm : (lowerEndsWith dotWav f && base.isPrefixOf (splitextRoot f)) = true) :
    latestStep base acc (f, t) =
      if acc.2 < t then (some (joinPath RECORDINGS_FOLDER f), t) else acc := by
  unfold latestStep
  simp only []
  rw [hm, if_pos rfl]

/-- The loop leaves the accumulator untouched when no entry matches. -/
lemma foldl_latestStep_no_match {base : List Nat} :
    ∀ {listing : List (List Nat × Int)} {acc : Option (List Nat) × Int},
      (∀ fm ∈ listing, (lowerEndsWith dotWav fm.1 &&
        base.isPrefixOf (splitextRoot fm.1)) = false) →
      listing.foldl (latestStep base) acc = acc := by
  intro listing
  induction listing with
  | nil => intro acc _; rfl
  | cons fm fms ih =>
    intro acc h
    rw [List.foldl_cons]
    have h0 := h fm (List.mem_cons_self _ _)
    have hstep : latestStep base acc fm = acc := by
      unfold latestStep
      rw [h0]
      simp
    rw [hstep]
    exact ih fun x hx => h x (List.mem_cons_of_mem _ hx)

/-- Any filename the loop produces comes from a matching entry of the listing
(or was already in the accumulator). -/
lemma foldl_latestStep_some {base : List Nat} :
    ∀ {listing : List (List Nat × Int)} {acc : Option (List Nat) × Int} {p : List Nat},
      (listing.foldl (latestStep base) acc).1 = some p →
      acc.1 = some p ∨ ∃ fm ∈ listing,
        (lowerEndsWith dotWav fm.1 && base.isPrefixOf (splitextRoot fm.1)) = true ∧
        p = joinPath RECORDINGS_FOLDER fm.1 := by
  intro listing
  induction listing with
  | nil => intro acc p h; exact Or.inl h
  | cons fm fms ih =>
    intro acc p h
    rw [List.foldl_cons] at h
    rcases ih h with h1 | ⟨x, hx, hmx, hpx⟩
    · unfold latestStep at h1
      split_ifs at h1 with hc1 hc2
      · injection h1 with h1
        exact Or.inr ⟨fm, List.mem_cons_self _ _, hc1, h1.symm⟩
      · exact Or.inl h1
      · exact Or.inl h1
    · exact Or.inr ⟨x, List.mem_cons_of_mem _ hx, hmx, hpx⟩

/-- C1 counterexample: `sanitize_filename` is not idempotent — in "a/b" the
slash becomes a hyphen, and a second application strips that hyphen. -/
theorem C1_counterexample :
    sanitize_filename (sanitize_filename [0x61, 0x2F, 0x62]) ≠
      sanitize_filename [0x61, 0x2F, 0x62] := by decide

/-- C1 (amended): `norm_base` is idempotent on every string, and
`sanitize_filename` is idempotent on every string containing no forward slash
and no backslash (on other strings the separator becomes a hyphen which the
second pass removes as punctuation). -/
theorem C1_idempotence :
    (∀ s : List Nat, norm_base (norm_base s) = norm_base s) ∧
    (∀ s : List Nat, (∀ d ∈ s, d ≠ 0x2F ∧ d ≠ 0x5C) →
      sanitize_filename (sanitize_filename s) = sanitize_filename s) :=
  ⟨norm_base_idem, fun _ hs => sanitize_idem_of_noslash hs⟩

/-- C1 witness: the amended idempotence applied at the concrete word "пять". -/
theorem C1_witness :
    sanitize_filename (sanitize_filename (toCodes "пять")) =
      sanitize_filename (toCodes "пять") :=
  C1_idempotence.2 (toCodes "пять") (by decide)

/-- C2 counterexample: with two prefix-matching WAV candidates of equal
timestamp the query returns the first observed, not the last as claimed. -/
theorem C2_counterexample :
    find_latest_user_recording true [(toCodes "a1.wav", 5), (toCodes "a2.wav", 5)]
        [0x61] = some (joinPath RECORDINGS_FOLDER (toCodes "a1.wav")) ∧
      joinPath RECORDINGS_FOLDER (toCodes "a1.wav") ≠
        joinPath RECORDINGS_FOLDER (toCodes "a2.wav") := by decide

/-- C2 (amended): among two matching candidates carrying the equal greatest
timestamp the query returns the one observed first in enumeration order — the
accumulator moves only on a strictly larger timestamp — and the result is a
deterministic function of the input ordering. -/
theorem C2_tie_first_observed :
    ∀ (display f1 f2 : List Nat) (t : Int), 0 ≤ t →
      (lowerEndsWith dotWav f1 &&
        (sanitize_filename display).isPrefixOf (splitextRoot f1)) = true →
      (lowerEndsWith dotWav f2 &&
        (sanitize_filename display).isPrefixOf (splitextRoot f2)) = true →
      find_latest_user_recording true [(f1, t), (f2, t)] display =
        some (joinPath RECORDINGS_FOLDER f1) := by
  intro display f1 f2 t ht hm1 hm2
  unfold find_latest_user_recording
  rw [if_neg (by simp), List.foldl_cons, List.foldl_cons, List.foldl_nil,
    latestStep_eq_of_match hm1,
    if_pos (show ((none : Option (List Nat)), (-1 : Int)).2 < t by
      show (-1 : Int) < t; omega),
    latestStep_eq_of_match hm2,
    if_neg (show ¬((some (joinPath RECORDINGS_FOLDER f1), t).2 < t) by
      show ¬(t < t); omega)]

/-- C2 witness: the amended tie-break at two concrete equal-timestamp
recordings for the display word "a". -/
theorem C2_witness :
    find_latest_user_recording true [(toCodes "a1.wav", 6), (toCodes "a2.wav", 6)]
      [0x61] = some (joinPath RECORDINGS_FOLDER (toCodes "a1.wav")) :=
  C2_tie_first_observed [0x61] (toCodes "a1.wav") (toCodes "a2.wav") 6
    (by omega) (by decide) (by decide)

/-- C3: a non-empty hint whose literal stem exists among the candidates always
wins — the resolver returns that candidate's path regardless of the display
word and of any other candidate that normalization would match. -/
theorem C3_hint_tier_precedence :
    ∀ (listing : List (List Nat)) (display hint : List Nat),
      hint ≠ [] → (hint ++ dotMp3) ∈ listing →
      play_audio_path true listing display hint =
        some (joinPath AUDIO_FOLDER (hint ++ dotMp3)) := by
  intro listing display hint h1 h2
  unfold play_audio_path
  rw [show hintExact true listing hint =
      some (joinPath AUDIO_FOLDER (hint ++ dotMp3)) from
    hintExact_eq_some_iff.mpr ⟨h1, rfl, h2, rfl⟩]

/-- C3 witness: the hint "num4" beats the candidate "четыре.mp3" that the
display word "четы́ре" would reach by normalization. -/
theorem C3_witness :
    play_audio_path true [toCodes "num4.mp3", toCodes "четыре.mp3"]
      [0x447, 0x435, 0x442, 0x44B, 0x301, 0x440, 0x435] (toCodes "num4") =
      some (joinPath AUDIO_FOLDER (toCodes "num4" ++ dotMp3)) :=
  C3_hint_tier_precedence _ _ _ (by decide) (by decide)

/-- C5: with an empty candidate collection resolution returns no match for
every display word and every hint value, and a missing directory yields
exactly the same observable outcome as an empty one. -/
theorem C5_empty_no_match :
    ∀ (display hint : List Nat) (listing : List (List Nat)),
      play_audio_path true [] display hint = none ∧
      play_audio_path false listing display hint = none ∧
      play_audio_path false listing display hint =
        play_audio_path true [] display hint := by
  intro display hint listing
  have hne : ∀ (l : List (List Nat)) (de : Bool) (f : List Nat),
      de = false ∨ l = [] → fileExists de l f = false := by
    rintro l de f (rfl | rfl)
    · rfl
    · unfold fileExists
      simp
  have h1 : play_audio_path true [] display hint = none := by
    unfold play_audio_path hintExact hintSanitized find_audio_path
    rw [hne [] true (hint ++ dotMp3) (Or.inr rfl),
      hne [] true (sanitize_filename hint ++ dotMp3) (Or.inr rfl)]
    simp [List.find?]
  have h2 : play_audio_path false listing display hint = none := by
    unfold play_audio_path hintExact hintSanitized find_audio_path
    rw [hne listing false (hint ++ dotMp3) (Or.inl rfl),
      hne listing false (sanitize_filename hint ++ dotMp3) (Or.inl rfl)]
    simp
  exact ⟨h1, h2, by rw [h1, h2]⟩

/-- C6: the latest-recording query sanitizes only the display word and tests
it as a plain prefix of each candidate's unsanitized stem; it returns no match
on an empty collection and when no candidate matches, and every returned path
names a matching candidate of the listing. -/
theorem C6_prefix_asymmetry :
    ∀ (display : List Nat) (listing : List (List Nat × Int)),
      find_latest_user_recording true [] display = none ∧
      ((∀ fm ∈ listing, (lowerEndsWith dotWav fm.1 &&
          (sanitize_filename display).isPrefixOf (splitextRoot fm.1)) = false) →
        find_latest_user_recording true listing display = none) ∧
      (∀ p, find_latest_user_recording true listing display = some p →
        ∃ fm ∈ listing, (lowerEndsWith dotWav fm.1 &&
          (sanitize_filename display).isPrefixOf (splitextRoot fm.1)) = true ∧
          p = joinPath RECORDINGS_FOLDER fm.1) := by
  intro display listing
  refine ⟨rfl, ?_, ?_⟩
  · intro h
    unfold find_latest_user_recording
    rw [if_neg (by simp), foldl_latestStep_no_match h]
  · intro p h
    unfold find_latest_user_recording at h
    rw [if_neg (by simp)] at h
    rcases foldl_latestStep_some h with h1 | h2
    · simp at h1
    · exact h2

/-- C6 witness: a listing whose only candidate fails the prefix test yields no
match. -/
theorem C6_witness :
    find_latest_user_recording true [(toCodes "b.wav", 3)] [0x61] = none :=
  (C6_prefix_asymmetry [0x61] [(toCodes "b.wav", 3)]).2.1 (by decide)

/-- C7: with display "четы́ре" (with a combining acute on ы), candidates
{"четыре.mp3", "другое.mp3"} and no hint, resolution returns the path of
"четыре.mp3". -/
theorem C7_concrete_scenario :
    play_audio_path true [toCodes "четыре.mp3", toCodes "другое.mp3"]
      [0x447, 0x435, 0x442, 0x44B, 0x301, 0x440, 0x435] [] =
      some (joinPath AUDIO_FOLDER (toCodes "четыре.mp3")) := by decide

/-- C8 counterexample: the sanitizer's output can contain a hyphen, one of the
punctuation characters the claim says never appear: sanitizing "a/b" yields
"a-b". -/
theorem C8_counterexample :
    (0x2D : Nat) ∈ sanitize_filename [0x61, 0x2F, 0x62] := by decide

/-- C8 (amended): the sanitizer's output contains no slash, no backslash and
none of the stripped punctuation characters except the hyphen (which appears
only as the replacement of a path separator), has no run of two or more
consecutive whitespace characters, and neither starts nor ends with
whitespace. -/
theorem C8_output_invariant :
    ∀ s : List Nat,
      ((sanitize_filename s).all fun c =>
        (!(decide (c = 0x2F) || decide (c = 0x5C))) &&
          (!punctB c || decide (c = 0x2D))) = true ∧
      noDoubleWs (sanitize_filename s) = true ∧
      headNotWs (sanitize_filename s) = true ∧
      lastNotWs (sanitize_filename s) = true := by
  intro s
  refine ⟨?_, noDoubleWs_sanitize s, headNotWs_sanitize s, lastNotWs_sanitize s⟩
  rw [List.all_eq_true]
  intro c hc
  have h := sanitize_mem hc
  simp only [Bool.and_eq_true, Bool.not_eq_true', Bool.or_eq_false_iff,
    decide_eq_false_iff_not, Bool.or_eq_true, Bool.not_eq_true,
    decide_eq_true_eq]
  refine ⟨⟨h.2.2.2.2.1, h.2.2.2.2.2.1⟩, ?_⟩
  cases hq : punctB c with
  | false => exact Or.inl rfl
  | true => exact Or.inr (h.2.2.2.2.2.2.2 hq)

/-- C9: every successful resolution of `find_audio_path` names an ".mp3" file
(case-insensitively): the direct tier appends ".mp3" itself and the scan tiers
draw only from the ".mp3"-filtered candidate list. -/
theorem C9_scan_only_mp3 :
    ∀ (de : Bool) (listing : List (List Nat)) (display p : List Nat),
      find_audio_path de listing display = some p →
      ∃ f, p = joinPath AUDIO_FOLDER f ∧ lowerEndsWith dotMp3 f = true ∧
        (f ∈ listing ∨ f = sanitize_filename display ++ dotMp3) := by
  intro de listing display p h
  unfold find_audio_path at h
  by_cases h1 : de = false
  · rw [if_pos h1] at h
    cases h
  · rw [if_neg h1] at h
    by_cases h2 : (sanitize_filename display ++ dotMp3) ∈ listing
    · rw [if_pos h2] at h
      injection h with h
      exact ⟨sanitize_filename display ++ dotMp3, h.symm,
        lowerEndsWith_append _, Or.inr rfl⟩
    · rw [if_neg h2] at h
      split at h
      · rename_i f hf
        injection h with h
        have hmem := List.mem_of_find?_eq_some hf
        rw [List.mem_filter] at hmem
        exact ⟨f, h.symm, hmem.2, Or.inl hmem.1⟩
      · split at h
        · rename_i f hf
          injection h with h
          have hmem := List.mem_of_find?_eq_some hf
          rw [List.mem_filter] at hmem
          exact ⟨f, h.symm, hmem.2, Or.inl hmem.1⟩
        · cases h

/-- C9 witness: resolving the upper-cased display "Пять" against the single
candidate "пять.mp3" succeeds through the normalized scan with an mp3 file. -/
theorem C9_witness :
    ∃ f, joinPath AUDIO_FOLDER (toCodes "пять.mp3") = joinPath AUDIO_FOLDER f ∧
      lowerEndsWith dotMp3 f = true ∧
      (f ∈ [toCodes "пять.mp3"] ∨
        f = sanitize_filename (toCodes "Пять") ++ dotMp3) :=
  C9_scan_only_mp3 true [toCodes "пять.mp3"] (toCodes "Пять")
    (joinPath AUDIO_FOLDER (toCodes "пять.mp3")) (by decide)

/-- C10: tier 1 interprets the hint strictly as a filename stem — it selects
a candidate exactly when the hint is non-empty, the directory exists, and the
collection contains hint ++ ".mp3"; hence a hint that already carries ".mp3"
matches only when hint ++ ".mp3.mp3" is present. -/
theorem C10_hint_strict_stem :
    ∀ (de : Bool) (listing : List (List Nat)) (hint p : List Nat),
      (hintExact de listing hint = some p ↔
        (hint ≠ [] ∧ de = true ∧ (hint ++ dotMp3) ∈ listing ∧
          p = joinPath AUDIO_FOLDER (hint ++ dotMp3))) ∧
      (∀ stem : List Nat, hintExact de listing (stem ++ dotMp3) = some p →
        (stem ++ dotMp3 ++ dotMp3) ∈ listing) := by
  intro de listing hint p
  refine ⟨hintExact_eq_some_iff, ?_⟩
  intro stem hsome
  have h := hintExact_eq_some_iff.mp hsome
  exact h.2.2.1

/-- C10 witness: the hint "пять" selects the candidate "пять.mp3", through the
characterization of tier 1. -/
theorem C10_witness :
    hintExact true [toCodes "пять.mp3"] (toCodes "пять") =
      some (joinPath AUDIO_FOLDER (toCodes "пять" ++ dotMp3)) :=
  (C10_hint_strict_stem true [toCodes "пять.mp3"] (toCodes "пять")
      (joinPath AUDIO_FOLDER (toCodes "пять" ++ dotMp3))).1.mpr
    ⟨by decide, rfl, by decide, rfl⟩

/-- C4 counterexample: `norm_base` does not replace path separators — the
slash in "a/b" survives normalization unchanged. -/
theorem C4_counterexample :
    norm_base [0x61, 0x2F, 0x62] = [0x61, 0x2F, 0x62] ∧
      (0x2F : Nat) ∈ norm_base [0x61, 0x2F, 0x62] := by decide

/-- C4 (amended): only `sanitize_filename` (its two identical copies) performs
the path-separator replacement — its output never contains a slash or a
backslash, and the slash of "a/b" becomes a hyphen — while `norm_base`
performs no such replacement and passes the slash through unchanged. -/
theorem C4_slash_replacement :
    (∀ s : List Nat, ((sanitize_filename s).all
      fun c => !(decide (c = 0x2F) || decide (c = 0x5C))) = true) ∧
    sanitize_filename [0x61, 0x2F, 0x62] = [0x61, 0x2D, 0x62] ∧
    norm_base [0x61, 0x2F, 0x62] = [0x61, 0x2F, 0x62] := by
  refine ⟨fun s => ?_, by decide, by decide⟩
  rw [List.all_eq_true]
  intro c hc
  have h := sanitize_mem hc
  simp only [Bool.not_eq_true', Bool.or_eq_false_iff, decide_eq_false_iff_not]
  exact ⟨h.2.2.2.2.1, h.2.2.2.2.2.1⟩
